import Mathlib

/-!
Verification of the `ai_inference` example circuit
(`src/examples/ai_inference/src/main.rs`).

The circuit `TwoLayerNN::generate_constraints` is embedded shallowly at the
level of the *values* it computes: every `FpVar` holds an element of the
BLS12-381 scalar field `Fr`, modelled here as a canonical natural-number
representative below the modulus `pB`, with all arithmetic performed
explicitly modulo `pB`.  Fallible operations (vector indexing, the two
`assert_eq!` shape checks) are modelled with `Except`; the run also records
the trace of `new_witness` / `new_input` allocations and of the final
`enforce_equal` call, so that claims about allocation order and about the
single public input can be stated.

External library operations called by the source are modelled at value level
from their (stable) implementations:
* `FpVar::is_cmp(other, Ordering::Greater, should_also_check_equality = true)`
  (ark-r1cs-std `fields/fp/cmp.rs`): rewrites to
  `other.is_smaller_than(&(self + 1))`, whose value is the low bit of
  `2 * (other - (self + 1))` in the field.  Note the flag `true` makes the
  comparison *greater-or-equal*, not strict.
* `FpVar::to_bits_le` (ark-r1cs-std): for an allocated variable it returns
  exactly `MODULUS_BIT_SIZE = 255` little-endian bits of the canonical
  representative.
* `PoseidonSponge` / `PoseidonSpongeVar` (ark-crypto-primitives): the gadget
  sponge computes the same values as the native sponge; both are modelled by
  one `Sp` state machine (rate 2, capacity 1, state width 3) with the
  permutation instantiated at the configuration returned by
  `get_poseidon_config` (8 full rounds, 57 partial rounds, alpha 5, the
  3x3 MDS matrix [[1,2,3],[4,5,6],[7,8,9]] and round constants
  `ark[r] = [r, r+1, r+2]`).
-/

namespace ZkAI

/-- The BLS12-381 scalar field modulus (`ark_test_curves::bls12_381::Fr`). -/
def pB : Nat :=
  52435875175126190479447740508185965837690552500527637822603658699938581184513

/-- Field addition on canonical representatives. -/
def addF (a b : Nat) : Nat := (a + b) % pB

/-- Field multiplication on canonical representatives. -/
def mulF (a b : Nat) : Nat := (a * b) % pB

/-- Field subtraction `a - b` on canonical representatives (`b < pB`). -/
def subF (a b : Nat) : Nat := (a + pB - b) % pB

/-- Value of the low bit of a field element's little-endian decomposition. -/
def lsbF (a : Nat) : Bool := a % 2 == 1

/-- Value of ark-r1cs-std `FpVar::is_smaller_than`: the low bit of
`(self - other).double()`. -/
def is_smaller_val (self other : Nat) : Bool := lsbF ((2 * subF self other) % pB)

/-- Value of `val.is_cmp(&other, Ordering::Greater, true)` from the source:
`process_cmp_inputs` maps `(Greater, true)` to `left = other`,
`right = self + 1` and the result is `left.is_smaller_than(&right)`.
The `true` flag therefore yields a greater-or-equal test. -/
def is_cmp_ge (self other : Nat) : Bool := is_smaller_val other (addF self 1)

/-- One element of Step 2 of `generate_constraints`:
`val.is_cmp(&zero_relu_var, Greater, true).select(&val, &zero_relu_var)`. -/
def relu (zero_relu v : Nat) : Nat := if is_cmp_ge v zero_relu then v else zero_relu

/-- One iteration of the Step 4 arg-max loop.  The accumulator is
`(max_value, index, max_index)`; `index` is the field element that the
source increments by `FpVar::Constant(F::one())` on every iteration. -/
def argmaxStep (acc : Nat × Nat × Nat) (v : Nat) : Nat × Nat × Nat :=
  let g := is_cmp_ge v acc.1
  let idx := addF acc.2.1 1
  (if g then v else acc.1, idx, if g then idx else acc.2.2)

/-- The Step 4 arg-max loop over `final_result = v0 :: rest`. -/
def argmax_loop (v0 : Nat) (rest : List Nat) : Nat :=
  (rest.foldl argmaxStep (v0, 0, 0)).2.2

/-- The arg-max reduction of Step 4, `none` when `final_result[0]` would
panic on an empty vector. -/
def argmaxVal : List Nat → Option Nat
  | [] => none
  | v :: rest => some (argmax_loop v rest)

/-- Value of `FpVar::to_bits_le` on an allocated variable: exactly
`MODULUS_BIT_SIZE = 255` little-endian bits of the canonical representative. -/
def to_bits_le (v : Nat) : List Bool := (List.range 255).map (fun i => v.testBit i)

/-- Value of `Boolean::le_bits_to_fp_var`: `Σ bits[i] * 2^i` (as a field
element; the reduction modulo `pB` is made explicit at the use site). -/
def le_bits_to_nat (bits : List Bool) : Nat :=
  bits.foldr (fun b acc => 2 * acc + (if b then 1 else 0)) 0

/-- The `shifted_bits` of Step 1: drop the low 22 bits when more than 22
bits are present, otherwise a single constant-false bit. -/
def shifted_bits (v : Nat) : List Bool :=
  if 22 < (to_bits_le v).length then (to_bits_le v).drop 22 else [false]

/-- The rescale applied to each first-layer accumulator
(`le_bits_to_fp_var(&shifted_bits)` as a field value). -/
def rescale (v : Nat) : Nat := le_bits_to_nat (shifted_bits v) % pB

/-! ### Linear layers

The inner loop `for (i, val) in row.iter().enumerate()` accumulates
`val * input_vars[i]`; indexing `input_vars[i]` panics as soon as the row is
longer than the input vector, which the lockstep recursion below reproduces.
Rows are paired with `bias_1_vars[j]` / `bias_2_vars[j]` in the same way. -/

/-- The dot-product accumulation of one row against the input vector.
`none` models the `input_vars[i]` index-out-of-bounds panic. -/
def dotAcc : List Nat → List Nat → Nat → Option Nat
  | [], _, acc => some acc
  | _ :: _, [], _ => none
  | w :: ws, x :: xs, acc => dotAcc ws xs (addF acc (mulF w x))

/-- Step 1: first layer, one row at a time: accumulate the dot product,
add the bias and rescale.  `none` models the index panics. -/
def layer1Rows : List (List Nat) → List Nat → List Nat → Option (List Nat)
  | [], _, _ => some []
  | _ :: _, _, [] => none
  | row :: rest, x, b :: bs =>
    match dotAcc row x 0 with
    | none => none
    | some d =>
      match layer1Rows rest x bs with
      | none => none
      | some vs => some (rescale (addF d b) :: vs)

/-- Step 3: second layer, one row at a time: dot product against the
activated vector plus bias, with no rescale. -/
def layer2Rows : List (List Nat) → List Nat → List Nat → Option (List Nat)
  | [], _, _ => some []
  | _ :: _, _, [] => none
  | row :: rest, a, b :: bs =>
    match dotAcc row a 0 with
    | none => none
    | some d =>
      match layer2Rows rest a bs with
      | none => none
      | some vs => some (addF d b :: vs)

/-! ### The Poseidon sponge

Modelled from `ark_crypto_primitives::sponge::poseidon` at the configuration
built by `get_poseidon_config`: state width 3 (capacity 1, rate 2),
8 full rounds, 57 partial rounds, S-box `x^5`, MDS matrix
`[[1,2,3],[4,5,6],[7,8,9]]` and round constants `ark[r] = [r, r+1, r+2]`.
`PoseidonSpongeVar` (used in-circuit) computes the same values as the native
`PoseidonSponge` by construction, so one model serves both sides. -/

/-- The three-element Poseidon state: `s0` is the capacity element,
`s1, s2` the rate elements. -/
structure PState where
  s0 : Nat
  s1 : Nat
  s2 : Nat
  deriving DecidableEq, Repr

/-- `apply_ark` at round `r`: add `ark[r] = [r, r+1, r+2]`. -/
def applyArk (st : PState) (r : Nat) : PState :=
  ⟨addF st.s0 r, addF st.s1 (r + 1), addF st.s2 (r + 2)⟩

/-- The Poseidon S-box `x^alpha` with `alpha = 5`. -/
def sboxF (a : Nat) : Nat := (a ^ 5) % pB

/-- `apply_mds` with the matrix `[[1,2,3],[4,5,6],[7,8,9]]`. -/
def applyMds (st : PState) : PState :=
  ⟨addF (addF (mulF st.s0 1) (mulF st.s1 2)) (mulF st.s2 3),
   addF (addF (mulF st.s0 4) (mulF st.s1 5)) (mulF st.s2 6),
   addF (addF (mulF st.s0 7) (mulF st.s1 8)) (mulF st.s2 9)⟩

/-- A full round: round constants, S-box on all three elements, MDS. -/
def fullRound (st : PState) (r : Nat) : PState :=
  let st := applyArk st r
  applyMds ⟨sboxF st.s0, sboxF st.s1, sboxF st.s2⟩

/-- A partial round: round constants, S-box on the first element only, MDS. -/
def partialRound (st : PState) (r : Nat) : PState :=
  let st := applyArk st r
  applyMds ⟨sboxF st.s0, st.s1, st.s2⟩

/-- The Poseidon permutation: rounds 0-3 full, 4-60 partial, 61-64 full. -/
def permute (st : PState) : PState :=
  let st := (List.range 4).foldl fullRound st
  let st := (List.range' 4 57).foldl partialRound st
  (List.range' 61 4).foldl fullRound st

/-- Sponge state: the permutation state plus `next_absorb_index`.  The source
only ever absorbs in absorbing mode and squeezes once at the very end, so the
squeezing mode needs no representation. -/
structure Sp where
  st : PState
  idx : Nat
  deriving DecidableEq, Repr

/-- `PoseidonSponge::new`: zero state, `next_absorb_index = 0`. -/
def newSp : Sp := ⟨⟨0, 0, 0⟩, 0⟩

/-- Add an element into rate position `i` (state position `capacity + i`). -/
def addRate (st : PState) (i : Nat) (e : Nat) : PState :=
  if i = 0 then ⟨st.s0, addF st.s1 e, st.s2⟩ else ⟨st.s0, st.s1, addF st.s2 e⟩

/-- `absorb` of a single field element: permute first when the rate is full,
then add into the next rate position. -/
def absorbElem (s : Sp) (e : Nat) : Sp :=
  if s.idx = 2 then ⟨addRate (permute s.st) 0 e, 1⟩
  else ⟨addRate s.st s.idx e, s.idx + 1⟩

/-- `squeeze_field_elements(1)[0]` / `squeeze_native_field_elements(1)[0]`
from absorbing mode: permute, then read the first rate element. -/
def squeeze1 (s : Sp) : Nat := (permute s.st).s1

/-- Absorb a list of field elements one at a time. -/
def absorbList (s : Sp) (l : List Nat) : Sp := l.foldl absorbElem s

/-- Absorb a matrix row-major, one element at a time (the nested
`for row in m { for var in row { sponge.absorb(&var) } }` loops). -/
def absorbMat (s : Sp) (m : List (List Nat)) : Sp :=
  m.foldl (fun s row => row.foldl absorbElem s) s

/-! ### The out-of-circuit reference computation `compute_model_var` -/

/-- The `sponge1` stage of `compute_model_var` (and of Step 5 in-circuit):
absorb `w1` row-major, `w2` row-major, `b1`, `b2`, the activation threshold,
then squeeze one element (`hash_model`). -/
def model_fingerprint (w1 w2 : List (List Nat)) (b1 b2 : List Nat) (zr : Nat) : Nat :=
  squeeze1 (absorbElem (absorbList (absorbList (absorbMat (absorbMat newSp w1) w2) b1) b2) zr)

/-- `compute_model_var` (source lines 317-354): the model fingerprint, then a
fresh sponge absorbing the input vector, the output and the fingerprint,
squeezing the statement digest. -/
def compute_model_var (w1 w2 : List (List Nat)) (b1 b2 : List Nat) (zr : Nat)
    (input : List Nat) (output : Nat) : Nat :=
  let hash_model := model_fingerprint w1 w2 b1 b2 zr
  squeeze1 (absorbElem (absorbElem (absorbList newSp input) output) hash_model)

/-! ### The circuit itself -/

/-- The circuit struct (`TwoLayerNN<F>`), with field elements as canonical
representatives. -/
structure TwoLayerNN where
  weight_1 : List (List Nat)
  weight_2 : List (List Nat)
  input : List Nat
  bias_1 : List Nat
  bias_2 : List Nat
  zero_relu : Nat
  public_statement : Nat
  deriving DecidableEq, Repr

/-- One event of a circuit-construction run: a `new_witness` allocation, a
`new_input` (public) allocation, or an `enforce_equal` assertion, each with
the value(s) involved. -/
inductive Ev where
  | wit (v : Nat)
  | pub (v : Nat)
  | eq (a b : Nat)
  deriving DecidableEq, Repr

/-- Where a panic aborted `generate_constraints`:
`idxW1`/`idxW2` are the `weight_1[0]` / `weight_2[0]` indexings inside the
two shape assertions, `assertNe1`/`assertNe2` the `assert_eq!` failures
themselves, and `runtime` any index-out-of-bounds panic after witness
allocation has begun. -/
inductive Loc where
  | idxW1
  | assertNe1
  | idxW2
  | assertNe2
  | runtime
  deriving DecidableEq, Repr

/-- The values a successful run exposes: the model fingerprint, the
inference digest, the arg-max output, and the two layers' witness vectors. -/
structure Outs where
  fingerprint : Nat
  digest : Nat
  argmaxOut : Nat
  inter : List Nat
  finals : List Nat
  deriving DecidableEq, Repr

/-- `TwoLayerNN::generate_constraints`, at value level.  A successful run
returns the event trace and the computed values; a panic returns its
location together with the events recorded before it.  (On a `runtime`
panic the trace keeps the completed allocation batches; finer interleaving
of the per-row intermediate witnesses is not needed by any claim.)
In-circuit, `is_cmp` additionally emits range-check constraints and the
gadgets allocate internal helper *witnesses*; those are never public inputs
and never top-level `enforce_equal` calls, so the trace records exactly the
allocations and the assertion written in `generate_constraints` itself. -/
def generate_constraints (c : TwoLayerNN) : Except (Loc × List Ev) (List Ev × Outs) :=
  match c.weight_1[0]? with
  | none => .error (.idxW1, [])
  | some r0 =>
    if r0.length ≠ c.input.length then .error (.assertNe1, []) else
    match c.weight_2[0]? with
    | none => .error (.idxW2, [])
    | some s0 =>
      if s0.length ≠ c.weight_1.length then .error (.assertNe2, []) else
      -- witness allocations: input, bias_1, bias_2, weight_1, weight_2, zero_relu
      let tr0 := c.input.map Ev.wit ++ c.bias_1.map Ev.wit ++ c.bias_2.map Ev.wit
        ++ c.weight_1.flatten.map Ev.wit ++ c.weight_2.flatten.map Ev.wit
        ++ [Ev.wit c.zero_relu]
      match layer1Rows c.weight_1 c.input c.bias_1 with
      | none => .error (.runtime, tr0)
      | some inter =>
        let tr1 := tr0 ++ inter.map Ev.wit
        let act := inter.map (relu c.zero_relu)
        match layer2Rows c.weight_2 act c.bias_2 with
        | none => .error (.runtime, tr1)
        | some finals =>
          let tr2 := tr1 ++ finals.map Ev.wit
          match finals with
          | [] => .error (.runtime, tr2)
          | f0 :: frest =>
            let am := argmax_loop f0 frest
            let fingerprint :=
              model_fingerprint c.weight_1 c.weight_2 c.bias_1 c.bias_2 c.zero_relu
            let digest :=
              squeeze1 (absorbElem (absorbElem (absorbList newSp c.input) am) fingerprint)
            let tr3 := tr2 ++ [Ev.wit am, Ev.pub c.public_statement,
              Ev.eq digest c.public_statement]
            .ok (tr3, ⟨fingerprint, digest, am, inter, finals⟩)

/-! ### Specification-side definitions (from the spec's words) -/

/-- The mathematical affine combination `Σ_i row[i]·v[i] + b` of one layer
row, as a field element. -/
def dotSum (row v : List Nat) : Nat := (List.zipWith (· * ·) row v).sum

/-- `specAffine row v b = (Σ_i row[i]·v[i] + b) mod p`. -/
def specAffine (row v : List Nat) (b : Nat) : Nat := (dotSum row v + b) % pB

/-- The spec's shape invariant: `W1` column count == `len(x)`,
`W2` column count == `len(b1)` == row count of `W1` (for every row), with
bias lengths matching the row counts and both matrices nonempty. -/
def wellShaped (c : TwoLayerNN) : Prop :=
  c.weight_1 ≠ [] ∧ c.weight_2 ≠ [] ∧
  (∀ row ∈ c.weight_1, row.length = c.input.length) ∧
  (∀ row ∈ c.weight_2, row.length = c.weight_1.length) ∧
  c.bias_1.length = c.weight_1.length ∧ c.bias_2.length = c.weight_2.length

instance (c : TwoLayerNN) : Decidable (wellShaped c) := by
  unfold wellShaped; infer_instance

/-- Exactly the two conditions asserted by the source before any
allocation: `weight_1[0].len() == input.len()` and
`weight_2[0].len() == weight_1.len()` (false when the indexing itself
would panic). -/
def assertsOk (c : TwoLayerNN) : Prop :=
  match c.weight_1[0]?, c.weight_2[0]? with
  | some r0, some s0 => r0.length = c.input.length ∧ s0.length = c.weight_1.length
  | _, _ => False

instance (c : TwoLayerNN) : Decidable (assertsOk c) := by
  unfold assertsOk
  rcases c.weight_1[0]? with _ | r0 <;> rcases c.weight_2[0]? with _ | s0 <;>
    simp <;> infer_instance

/-! ### The values and trace of a successful run -/

/-- The first-layer witness vector of a well-shaped run. -/
def interOf (c : TwoLayerNN) : List Nat :=
  List.zipWith (fun row b => rescale (specAffine row c.input b)) c.weight_1 c.bias_1

/-- The activated vector of a well-shaped run. -/
def actOf (c : TwoLayerNN) : List Nat := (interOf c).map (relu c.zero_relu)

/-- The second-layer witness vector of a well-shaped run. -/
def finalsOf (c : TwoLayerNN) : List Nat :=
  List.zipWith (fun row b => specAffine row (actOf c) b) c.weight_2 c.bias_2

/-- The arg-max output of a well-shaped run. -/
def amOf (c : TwoLayerNN) : Nat :=
  match finalsOf c with
  | [] => 0
  | f :: fs => argmax_loop f fs

/-- The statement digest computed in-circuit by a well-shaped run. -/
def digestOf (c : TwoLayerNN) : Nat :=
  squeeze1 (absorbElem (absorbElem (absorbList newSp c.input) (amOf c))
    (model_fingerprint c.weight_1 c.weight_2 c.bias_1 c.bias_2 c.zero_relu))

/-- The outputs of a well-shaped run. -/
def outsOf (c : TwoLayerNN) : Outs :=
  ⟨model_fingerprint c.weight_1 c.weight_2 c.bias_1 c.bias_2 c.zero_relu,
   digestOf c, amOf c, interOf c, finalsOf c⟩

/-- The event trace of a well-shaped run. -/
def traceOf (c : TwoLayerNN) : List Ev :=
  c.input.map Ev.wit ++ c.bias_1.map Ev.wit ++ c.bias_2.map Ev.wit
    ++ c.weight_1.flatten.map Ev.wit ++ c.weight_2.flatten.map Ev.wit
    ++ [Ev.wit c.zero_relu] ++ (interOf c).map Ev.wit ++ (finalsOf c).map Ev.wit
    ++ [Ev.wit (amOf c), Ev.pub c.public_statement,
        Ev.eq (digestOf c) c.public_statement]


/-- Event classifier: is this a `new_input` (public) allocation? -/
def isPubEv : Ev → Bool
  | .pub _ => true
  | _ => false

/-- Event classifier: is this an `enforce_equal` assertion? -/
def isEqEv : Ev → Bool
  | .eq _ _ => true
  | _ => false


/-! ### Arithmetic helper lemmas

The modulus is kept as the opaque constant `pB` throughout (only a handful
of facts about it, provable by `decide`, are ever needed), so that `omega`
works symbolically. -/

theorem pB_pos : 0 < pB := by decide

theorem pB_gt3 : 3 < pB := by decide

theorem pB_odd : pB % 2 = 1 := by decide

theorem pB_lt_two_pow : pB < 2 ^ 255 := by decide

/-- Reduce one modulus application on an argument below `2 * N`. -/
theorem mod_lt_two_mul (N x : Nat) (_hN : 0 < N) (h : x < 2 * N) :
    x % N = if x < N then x else x - N := by
  split_ifs with h1
  · exact Nat.mod_eq_of_lt h1
  · rw [Nat.mod_eq_sub_mod (by omega)]
    exact Nat.mod_eq_of_lt (by omega)

/-- Core characterisation of the comparison gadget's low-bit formula, over a
symbolic odd modulus `N`: the bit is set exactly when the field difference
`a - b` has canonical representative at most `(N - 3) / 2`. -/
theorem cmp_core (N a b : Nat) (_hN : 3 < N) (hodd : N % 2 = 1)
    (ha : a < N) (hb : b < N) :
    ((2 * ((b + N - (a + 1) % N) % N)) % N % 2 = 1) ↔
      (a + N - b) % N ≤ (N - 3) / 2 := by
  have hNpos : 0 < N := by omega
  have e1 : (a + 1) % N = if a + 1 < N then a + 1 else 0 := by
    split_ifs with h
    · exact Nat.mod_eq_of_lt h
    · have h2 : a + 1 = N := by omega
      simp [h2]
  rw [e1]
  rw [mod_lt_two_mul N (b + N - if a + 1 < N then a + 1 else 0) hNpos
    (by split_ifs <;> omega)]
  rw [mod_lt_two_mul N (2 * _) hNpos (by split_ifs <;> omega)]
  rw [mod_lt_two_mul N (a + N - b) hNpos (by omega)]
  split_ifs <;> omega

/-- The value of `is_cmp(.., Greater, true)`: true exactly when the field
difference `a - b` has canonical representative at most `(pB - 3) / 2`. -/
theorem is_cmp_ge_true_iff (a b : Nat) (ha : a < pB) (hb : b < pB) :
    is_cmp_ge a b = true ↔ (a + pB - b) % pB ≤ (pB - 3) / 2 := by
  have h := cmp_core pB a b pB_gt3 pB_odd ha hb
  unfold is_cmp_ge is_smaller_val lsbF subF addF
  simpa using h

/-- In the gadget's sound range (`≤ (pB - 3) / 2`) the comparison computes
exactly greater-or-equal. -/
theorem is_cmp_ge_small (a b : Nat)
    (ha : a ≤ (pB - 3) / 2) (hb : b ≤ (pB - 3) / 2) :
    is_cmp_ge a b = true ↔ b ≤ a := by
  have hp := pB_gt3
  rw [is_cmp_ge_true_iff a b (by omega) (by omega)]
  rw [mod_lt_two_mul pB (a + pB - b) (by omega) (by omega)]
  split_ifs <;> omega

/-! ### Bit-decomposition lemmas -/

theorem le_bits_cons (b : Bool) (bs : List Bool) :
    le_bits_to_nat (b :: bs) = 2 * le_bits_to_nat bs + (if b then 1 else 0) :=
  rfl

theorem le_bits_lt (l : List Bool) : le_bits_to_nat l < 2 ^ l.length := by
  induction l with
  | nil => simp [le_bits_to_nat]
  | cons b bs ih =>
    rw [le_bits_cons]
    simp only [List.length_cons, Nat.pow_succ]
    split_ifs <;> omega

theorem le_bits_take_drop (k : Nat) (l : List Bool) :
    le_bits_to_nat l =
      le_bits_to_nat (l.take k) + 2 ^ k * le_bits_to_nat (l.drop k) := by
  induction k generalizing l with
  | zero => simp [le_bits_to_nat]
  | succ k ih =>
    cases l with
    | nil => simp [le_bits_to_nat]
    | cons b bs =>
      simp only [List.take_succ_cons, List.drop_succ_cons, le_bits_cons]
      rw [ih bs, Nat.pow_succ]
      ring

/-- Dropping the `k` low bits divides the assembled value by `2 ^ k`. -/
theorem le_bits_drop (k : Nat) (l : List Bool) :
    le_bits_to_nat (l.drop k) = le_bits_to_nat l / 2 ^ k := by
  have hk : 0 < 2 ^ k := Nat.pos_pow_of_pos k (by omega)
  have htake : le_bits_to_nat (l.take k) < 2 ^ k := by
    have h1 := le_bits_lt (l.take k)
    have h2 : (l.take k).length ≤ k := by
      simp [List.length_take]
    exact lt_of_lt_of_le h1 (Nat.pow_le_pow_right (by omega) h2)
  rw [le_bits_take_drop k l, Nat.add_mul_div_left _ _ hk,
    Nat.div_eq_of_lt htake, Nat.zero_add]

theorem le_bits_range (n : Nat) : ∀ w : Nat,
    le_bits_to_nat ((List.range n).map fun i => w.testBit i) = w % 2 ^ n := by
  induction n with
  | zero =>
    intro w
    simp [le_bits_to_nat, Nat.mod_one]
  | succ n ih =>
    intro w
    rw [List.range_succ_eq_map, List.map_cons, List.map_map, le_bits_cons]
    have hmap : (List.range n).map ((fun i => w.testBit i) ∘ Nat.succ) =
        (List.range n).map fun i => (w / 2).testBit i :=
      List.map_congr_left (fun a _ => Nat.testBit_succ w a)
    rw [hmap, ih (w / 2)]
    have hbit : (if w.testBit 0 then 1 else 0) = w % 2 := by
      rw [Nat.testBit_zero]
      rcases Nat.mod_two_eq_zero_or_one w with h | h <;> simp [h]
    rw [hbit, Nat.pow_succ']
    rw [Nat.mod_mul]
    omega

theorem to_bits_le_length (v : Nat) : (to_bits_le v).length = 255 := by
  simp [to_bits_le]

theorem to_bits_le_eval (v : Nat) :
    le_bits_to_nat (to_bits_le v) = v % 2 ^ 255 :=
  le_bits_range 255 v

/-- The rescale operation is truncating division by `2 ^ 22` on canonical
representatives. -/
theorem rescale_eq (v : Nat) (hv : v < pB) : rescale v = v / 2 ^ 22 := by
  unfold rescale shifted_bits
  rw [to_bits_le_length]
  simp only [if_pos (by omega : 22 < 255)]
  rw [le_bits_drop, to_bits_le_eval]
  rw [Nat.mod_eq_of_lt (lt_trans hv pB_lt_two_pow)]
  exact Nat.mod_eq_of_lt (lt_of_le_of_lt (Nat.div_le_self v _) hv)

/-! ### Dot products and layers -/

theorem dotAcc_eq : ∀ (row x : List Nat) (acc : Nat), acc < pB →
    row.length ≤ x.length →
    dotAcc row x acc = some ((acc + dotSum row x) % pB) := by
  intro row
  induction row with
  | nil =>
    intro x acc hacc _
    simp [dotAcc, dotSum, Nat.mod_eq_of_lt hacc]
  | cons w ws ih =>
    intro x acc hacc hlen
    cases x with
    | nil => simp at hlen
    | cons x0 xs =>
      have hlen' : ws.length ≤ xs.length := by simpa using hlen
      show dotAcc ws xs (addF acc (mulF w x0)) = _
      rw [ih xs (addF acc (mulF w x0)) (Nat.mod_lt _ pB_pos) hlen']
      have hsum : dotSum (w :: ws) (x0 :: xs) = w * x0 + dotSum ws xs := by
        simp [dotSum]
      rw [hsum]
      unfold addF mulF
      rw [Nat.mod_add_mod]
      have step : acc + w * x0 % pB + dotSum ws xs
          = acc + dotSum ws xs + w * x0 % pB := by ring
      rw [step, Nat.add_mod_mod]
      congr 1
      ring

theorem layer1Rows_eq : ∀ (rows : List (List Nat)) (x bs : List Nat),
    (∀ r ∈ rows, r.length ≤ x.length) → rows.length ≤ bs.length →
    layer1Rows rows x bs =
      some (List.zipWith (fun row b => rescale (specAffine row x b)) rows bs) := by
  intro rows
  induction rows with
  | nil => intro x bs _ _; simp [layer1Rows]
  | cons row rest ih =>
    intro x bs hr hb
    cases bs with
    | nil => simp at hb
    | cons b bs' =>
      show layer1Rows (row :: rest) x (b :: bs') = _
      unfold layer1Rows
      rw [dotAcc_eq row x 0 pB_pos (hr row (by simp))]
      rw [ih x bs' (fun r h => hr r (by simp [h])) (by simpa using hb)]
      simp only [List.zipWith_cons_cons]
      have : addF ((0 + dotSum row x) % pB) b = specAffine row x b := by
        unfold addF specAffine
        rw [Nat.mod_add_mod]
        simp
      rw [this]

theorem layer2Rows_eq : ∀ (rows : List (List Nat)) (a bs : List Nat),
    (∀ r ∈ rows, r.length ≤ a.length) → rows.length ≤ bs.length →
    layer2Rows rows a bs =
      some (List.zipWith (fun row b => specAffine row a b) rows bs) := by
  intro rows
  induction rows with
  | nil => intro a bs _ _; simp [layer2Rows]
  | cons row rest ih =>
    intro a bs hr hb
    cases bs with
    | nil => simp at hb
    | cons b bs' =>
      show layer2Rows (row :: rest) a (b :: bs') = _
      unfold layer2Rows
      rw [dotAcc_eq row a 0 pB_pos (hr row (by simp))]
      rw [ih a bs' (fun r h => hr r (by simp [h])) (by simpa using hb)]
      simp only [List.zipWith_cons_cons]
      have : addF ((0 + dotSum row a) % pB) b = specAffine row a b := by
        unfold addF specAffine
        rw [Nat.mod_add_mod]
        simp
      rw [this]

/-! ### Sponge rewriting lemmas -/

theorem absorbList_append (s : Sp) (l1 l2 : List Nat) :
    absorbList s (l1 ++ l2) = absorbList (absorbList s l1) l2 := by
  unfold absorbList
  exact List.foldl_append absorbElem s l1 l2

theorem absorbList_single (s : Sp) (e : Nat) :
    absorbList s [e] = absorbElem s e := rfl

theorem absorbMat_eq_flatten (s : Sp) (m : List (List Nat)) :
    absorbMat s m = absorbList s m.flatten := by
  unfold absorbMat absorbList
  rw [List.foldl_flatten]

theorem actOf_length (c : TwoLayerNN) (h5 : c.bias_1.length = c.weight_1.length) :
    (actOf c).length = c.weight_1.length := by
  simp [actOf, interOf, List.length_zipWith]
  omega

/-- A well-shaped circuit runs to completion, with the values and trace
given by the derived definitions above. -/
theorem generate_constraints_ok (c : TwoLayerNN) (h : wellShaped c) :
    generate_constraints c = .ok (traceOf c, outsOf c) := by
  obtain ⟨h1, h2, h3, h4, h5, h6⟩ := h
  have hl1 : layer1Rows c.weight_1 c.input c.bias_1 = some (interOf c) :=
    layer1Rows_eq _ _ _ (fun r hr => le_of_eq (h3 r hr)) (le_of_eq h5.symm)
  have hal : (actOf c).length = c.weight_1.length := actOf_length c h5
  have hl2 : layer2Rows c.weight_2 (actOf c) c.bias_2 = some (finalsOf c) :=
    layer2Rows_eq _ _ _ (fun r hr => le_of_eq ((h4 r hr).trans hal.symm))
      (le_of_eq h6.symm)
  have hfin : finalsOf c ≠ [] := by
    intro hcontra
    have hlen : (finalsOf c).length = 0 := by rw [hcontra]; rfl
    rw [finalsOf, List.length_zipWith] at hlen
    have hw2len : c.weight_2.length = 0 := by omega
    exact h2 (List.eq_nil_of_length_eq_zero hw2len)
  obtain ⟨f0, ft, hsplit⟩ : ∃ f0 ft, finalsOf c = f0 :: ft := by
    cases hf : finalsOf c with
    | nil => exact absurd hf hfin
    | cons f fs => exact ⟨f, fs, rfl⟩
  have ham : amOf c = argmax_loop f0 ft := by
    unfold amOf
    rw [hsplit]
  rcases hw1 : c.weight_1 with _ | ⟨r0, w1t⟩
  · exact absurd hw1 h1
  rcases hw2 : c.weight_2 with _ | ⟨s0, w2t⟩
  · exact absurd hw2 h2
  have hr0 : r0.length = c.input.length := h3 r0 (by rw [hw1]; simp)
  have hs0' : s0.length = (r0 :: w1t).length := by
    rw [← hw1]
    exact h4 s0 (by rw [hw2]; simp)
  have hl1' : layer1Rows (r0 :: w1t) c.input c.bias_1 = some (interOf c) := by
    rw [← hw1]; exact hl1
  have hl2' : layer2Rows (s0 :: w2t) (List.map (relu c.zero_relu) (interOf c))
      c.bias_2 = some (finalsOf c) := by
    rw [← hw2]; exact hl2
  unfold generate_constraints
  rw [hw1, hw2]
  simp only [List.getElem?_cons_zero, hr0, hs0', ne_eq, eq_self_iff_true,
    not_true_eq_false, ite_false, hl1', hl2', hsplit]
  unfold traceOf outsOf digestOf
  rw [ham, hw1, hw2, hsplit]

/-- When either of the two asserted conditions fails, the run aborts at the
assert stage, before any allocation: the recorded trace is empty. -/
theorem generate_constraints_assert_abort (c : TwoLayerNN) (h : ¬ assertsOk c) :
    ∃ l, generate_constraints c = .error (l, []) := by
  unfold assertsOk at h
  unfold generate_constraints
  rcases hw1 : c.weight_1[0]? with _ | r0
  · exact ⟨.idxW1, rfl⟩
  · by_cases hlen : r0.length = c.input.length
    · rcases hw2 : c.weight_2[0]? with _ | s0
      · refine ⟨.idxW2, ?_⟩
        simp only [ne_eq, hlen, eq_self_iff_true, not_true_eq_false, ite_false]
      · rw [hw1, hw2] at h
        have hs : ¬(s0.length = c.weight_1.length) := fun hs => h ⟨hlen, hs⟩
        refine ⟨.assertNe2, ?_⟩
        simp only [ne_eq, hlen, eq_self_iff_true, not_true_eq_false, ite_false,
          hs, not_false_eq_true, ite_true]
    · refine ⟨.assertNe1, ?_⟩
      simp only [ne_eq, hlen, not_false_eq_true, ite_true]

/-- Once both asserted conditions hold, the initial witness allocations are
recorded before any later panic: an error trace is never empty. -/
theorem generate_constraints_post_assert (c : TwoLayerNN) (h : assertsOk c) :
    ∀ l tr, generate_constraints c = .error (l, tr) → tr ≠ [] := by
  unfold assertsOk at h
  unfold generate_constraints
  rcases hw1 : c.weight_1[0]? with _ | r0
  · rw [hw1] at h
    exact h.elim
  · rw [hw1] at h
    rcases hw2 : c.weight_2[0]? with _ | s0
    · rw [hw2] at h
      exact h.elim
    · rw [hw2] at h
      obtain ⟨hlen1, hlen2⟩ := h
      simp only [ne_eq, hlen1, hlen2, eq_self_iff_true, not_true_eq_false,
        ite_false]
      intro l tr heq
      split at heq
      · injection heq with h1
        injection h1 with _ h2
        rw [← h2]
        simp
      · split at heq
        · injection heq with h1
          injection h1 with _ h2
          rw [← h2]
          simp
        · split at heq
          · injection heq with h1
            injection h1 with _ h2
            rw [← h2]
            simp
          · exact Except.noConfusion heq

/-! ### Comparison gadget range lemmas and arg-max invariant -/

theorem getD_lt_mem (l : List Nat) (j : Nat) (hj : j < l.length) :
    l.getD j 0 ∈ l := by
  rw [List.getD_eq_getElem?_getD, List.getElem?_eq_getElem hj]
  exact List.getElem_mem hj

/-- In the range documented for the gadget (`z` strictly below `(p-1)/2`,
`t` at most `(p-1)/2`) the comparison computes greater-or-equal exactly. -/
theorem is_cmp_ge_relu_range (z t : Nat) (hz : z < (pB - 1) / 2)
    (ht : t ≤ (pB - 1) / 2) : is_cmp_ge z t = true ↔ t ≤ z := by
  have hp := pB_gt3
  have hodd := pB_odd
  rw [is_cmp_ge_true_iff z t (by omega) (by omega)]
  rw [mod_lt_two_mul pB (z + pB - t) (by omega) (by omega)]
  split_ifs <;> omega

/-- A value whose canonical representative exceeds `t` by at least
`(p-1)/2` (e.g. the embedding of a negative number against a small
threshold) compares as not-greater. -/
theorem is_cmp_ge_neg_range (z t : Nat) (_hz : (pB - 1) / 2 < z)
    (hzp : z < pB) (ht : t + (pB - 1) / 2 ≤ z) : is_cmp_ge z t = false := by
  have hp := pB_gt3
  have hodd := pB_odd
  have hiff := is_cmp_ge_true_iff z t hzp (by omega)
  rw [mod_lt_two_mul pB (z + pB - t) (by omega) (by omega)] at hiff
  cases h' : is_cmp_ge z t with
  | false => rfl
  | true =>
    have hcontra := hiff.mp h'
    split_ifs at hcontra <;> omega

/-- Invariant of the arg-max fold: starting from a state that correctly
summarises the first `n` elements, the fold over the remaining elements
returns the position of the maximum, with the highest position winning
among equal maxima (the greater-or-equal update overwrites on ties). -/
theorem argmax_go (l : List Nat) (hlen : l.length ≤ pB)
    (hB : ∀ v ∈ l, v ≤ (pB - 3) / 2) :
    ∀ (rest : List Nat) (n maxv maxidx : Nat),
      rest = l.drop n → 1 ≤ n → n ≤ l.length →
      maxidx < n → l.getD maxidx 0 = maxv →
      (∀ j, j < n → l.getD j 0 ≤ maxv) →
      (∀ j, j < n → l.getD j 0 = maxv → j ≤ maxidx) →
      ((rest.foldl argmaxStep (maxv, n - 1, maxidx)).2.2 < l.length ∧
       (∀ j, j < l.length →
         l.getD j 0 ≤ l.getD ((rest.foldl argmaxStep (maxv, n - 1, maxidx)).2.2) 0) ∧
       (∀ j, j < l.length →
         l.getD j 0 = l.getD ((rest.foldl argmaxStep (maxv, n - 1, maxidx)).2.2) 0 →
         j ≤ (rest.foldl argmaxStep (maxv, n - 1, maxidx)).2.2)) := by
  intro rest
  induction rest with
  | nil =>
    intro n maxv maxidx hrest hn1 hnl hmi hmd hub hties
    have hnn : n = l.length := by
      have := List.drop_eq_nil_iff.mp hrest.symm
      omega
    simp only [List.foldl_nil]
    refine ⟨by omega, ?_, ?_⟩
    · intro j hj
      rw [hmd]
      exact hub j (by omega)
    · intro j hj hjeq
      rw [hmd] at hjeq
      exact hties j (by omega) hjeq
  | cons v rest' ih =>
    intro n maxv maxidx hrest hn1 hnl hmi hmd hub hties
    have hn : n < l.length := by
      by_contra hcon
      rw [List.drop_eq_nil_of_le (by omega)] at hrest
      exact List.noConfusion hrest
    have hdrop := List.drop_eq_getElem_cons (l := l) (n := n) hn
    rw [hdrop] at hrest
    injection hrest with hv hrest'
    have haddF : addF (n - 1) 1 = n := by
      unfold addF
      have hsn : n - 1 + 1 = n := by omega
      rw [hsn]
      exact Nat.mod_eq_of_lt (by omega)
    have hvB : v ≤ (pB - 3) / 2 := hB v (by rw [hv]; exact List.getElem_mem hn)
    have hmaxB : maxv ≤ (pB - 3) / 2 := by
      rw [← hmd]
      exact hB _ (getD_lt_mem l maxidx (by omega))
    have hgetn : l.getD n 0 = v := by
      rw [List.getD_eq_getElem?_getD, List.getElem?_eq_getElem hn, hv]
      rfl
    rw [List.foldl_cons]
    by_cases hg : maxv ≤ v
    · have hgt : is_cmp_ge v maxv = true := (is_cmp_ge_small v maxv hvB hmaxB).mpr hg
      have hstep : argmaxStep (maxv, n - 1, maxidx) v = (v, n, n) := by
        simp [argmaxStep, hgt, haddF]
      rw [hstep]
      have hres := ih (n + 1) v n hrest' (by omega) (by omega) (by omega)
        hgetn
        (fun j hj => by
          rcases Nat.lt_or_ge j n with hj' | hj'
          · exact le_trans (hub j hj') hg
          · have hjn : j = n := by omega
            rw [hjn, hgetn])
        (fun j hj _ => by omega)
      simpa using hres
    · have hlt : v < maxv := by omega
      have hgf : is_cmp_ge v maxv = false := by
        cases h' : is_cmp_ge v maxv with
        | false => rfl
        | true => exact absurd ((is_cmp_ge_small v maxv hvB hmaxB).mp h') hg
      have hstep : argmaxStep (maxv, n - 1, maxidx) v = (maxv, n, maxidx) := by
        simp [argmaxStep, hgf, haddF]
      rw [hstep]
      have hres := ih (n + 1) maxv maxidx hrest' (by omega) (by omega) (by omega)
        hmd
        (fun j hj => by
          rcases Nat.lt_or_ge j n with hj' | hj'
          · exact hub j hj'
          · have hjn : j = n := by omega
            rw [hjn, hgetn]
            omega)
        (fun j hj hjeq => by
          rcases Nat.lt_or_ge j n with hj' | hj'
          · exact hties j hj' hjeq
          · have hjn : j = n := by omega
            rw [hjn, hgetn] at hjeq
            omega)
      simpa using hres

/-! ### Trace filter lemmas -/

theorem wit_no_pub (l : List Nat) : (l.map Ev.wit).filter isPubEv = [] := by
  induction l with
  | nil => rfl
  | cons a t ih => simp [isPubEv, ih]

theorem wit_no_eq (l : List Nat) : (l.map Ev.wit).filter isEqEv = [] := by
  induction l with
  | nil => rfl
  | cons a t ih => simp [isEqEv, ih]

theorem wit_flat_no_pub (m : List (List Nat)) :
    (m.flatten.map Ev.wit).filter isPubEv = [] := by
  induction m with
  | nil => rfl
  | cons r t ih =>
    simp only [List.flatten_cons, List.map_append, List.filter_append, ih,
      wit_no_pub, List.append_nil]

theorem wit_flat_no_eq (m : List (List Nat)) :
    (m.flatten.map Ev.wit).filter isEqEv = [] := by
  induction m with
  | nil => rfl
  | cons r t ih =>
    simp only [List.flatten_cons, List.map_append, List.filter_append, ih,
      wit_no_eq, List.append_nil]

/-! ## Claim theorems -/

/-- C1 (counterexample): the arg-max reduction applied to the logits
`[5, 5, 3]` returns index `1`, not index `0` as the claim states: the
`is_cmp(.., Greater, true)` update is greater-or-equal, so a tie moves the
index forward. -/
theorem argmax_tie_counterexample :
    argmaxVal [5, 5, 3] = some 1 ∧ argmaxVal [5, 5, 3] ≠ some 0 :=
  ⟨by decide, by decide⟩

/-- C1 (amended): for every nonempty logit vector whose entries lie in the
comparison gadget's sound range, the arg-max reduction returns an index of
the maximum value, and the HIGHEST index among equal maxima wins (the
greater-or-equal update overwrites the retained index on ties). -/
theorem argmax_last_max_of_bounded (l : List Nat) (h0 : l ≠ [])
    (hlen : l.length ≤ pB) (hB : ∀ v ∈ l, v ≤ (pB - 3) / 2) :
    ∃ k, argmaxVal l = some k ∧ k < l.length ∧
      (∀ j, j < l.length → l.getD j 0 ≤ l.getD k 0) ∧
      (∀ j, j < l.length → l.getD j 0 = l.getD k 0 → j ≤ k) := by
  cases l with
  | nil => exact absurd rfl h0
  | cons v rest =>
    have hres := argmax_go (v :: rest) hlen hB rest 1 v 0 rfl (le_refl 1)
      (by simp) (by omega) rfl
      (fun j hj => by
        have hj0 : j = 0 := by omega
        rw [hj0]
        simp)
      (fun j hj _ => by omega)
    refine ⟨(rest.foldl argmaxStep (v, 0, 0)).2.2, rfl, ?_⟩
    simpa using hres

/-- C1 (witness): the amended theorem applied to the logits `[3, 7, 7]`. -/
theorem argmax_last_max_of_bounded_witness :
    (([3, 7, 7] : List Nat) ≠ [] ∧ ([3, 7, 7] : List Nat).length ≤ pB ∧
      (∀ v ∈ ([3, 7, 7] : List Nat), v ≤ (pB - 3) / 2)) ∧
    (∃ k, argmaxVal [3, 7, 7] = some k ∧ k < ([3, 7, 7] : List Nat).length ∧
      (∀ j, j < ([3, 7, 7] : List Nat).length →
        ([3, 7, 7] : List Nat).getD j 0 ≤ ([3, 7, 7] : List Nat).getD k 0) ∧
      (∀ j, j < ([3, 7, 7] : List Nat).length →
        ([3, 7, 7] : List Nat).getD j 0 = ([3, 7, 7] : List Nat).getD k 0 →
        j ≤ k)) :=
  ⟨⟨by decide, by decide, by decide⟩,
   argmax_last_max_of_bounded [3, 7, 7] (by decide) (by decide) (by decide)⟩

/-- C2 (counterexample): at `z = (p-1)/2`, `t = 0` the claim's rule
`a = z if z > t` fails: `z` exceeds `t` (as canonical representative and as
centred signed value) yet the activation returns `t = 0`, because
`is_cmp`'s shifted operand `z + 1` leaves the sound range. -/
theorem relu_half_counterexample :
    relu 0 ((pB - 1) / 2) = 0 ∧ 0 < (pB - 1) / 2 :=
  ⟨by decide, by decide⟩

/-- C2 (amended): the clipped activation computes `a = z if z > t else t`
for thresholds `t ≤ (p-1)/2` and values `z < (p-1)/2`; canonical
representatives at least `(p-1)/2` above the threshold (the embeddings of
negative values) clip to the threshold; in particular `[-3, 0, 4]` with
threshold `0` yields `[0, 0, 4]`. -/
theorem relu_clip_in_range :
    (∀ t z : Nat, z < (pB - 1) / 2 → t ≤ (pB - 1) / 2 →
      relu t z = if t < z then z else t) ∧
    (∀ t z : Nat, (pB - 1) / 2 < z → z < pB → t + (pB - 1) / 2 ≤ z →
      relu t z = t) ∧
    [pB - 3, 0, 4].map (relu 0) = [0, 0, 4] := by
  refine ⟨?_, ?_, ?_⟩
  · intro t z hz ht
    unfold relu
    by_cases h : t ≤ z
    · rw [if_pos ((is_cmp_ge_relu_range z t hz ht).mpr h)]
      by_cases h2 : t < z
      · rw [if_pos h2]
      · have heq : t = z := by omega
        rw [if_neg h2, heq]
    · have hfalse : is_cmp_ge z t = false := by
        cases h' : is_cmp_ge z t with
        | false => rfl
        | true => exact absurd ((is_cmp_ge_relu_range z t hz ht).mp h') h
      rw [hfalse]
      simp only [Bool.false_eq_true, if_false]
      rw [if_neg (by omega)]
  · intro t z hz hzp ht
    unfold relu
    rw [is_cmp_ge_neg_range z t hz hzp ht]
    simp
  · decide

/-- C2 (witness): the amended theorem at `t = 5, z = 7` (kept) and at
`t = 3, z = p - 2` (the embedding of `-2`, clipped to the threshold). -/
theorem relu_clip_in_range_witness :
    ((7 : Nat) < (pB - 1) / 2 ∧ (5 : Nat) ≤ (pB - 1) / 2 ∧
      relu 5 7 = if 5 < 7 then 7 else 5) ∧
    ((pB - 1) / 2 < pB - 2 ∧ pB - 2 < pB ∧ 3 + (pB - 1) / 2 ≤ pB - 2 ∧
      relu 3 (pB - 2) = 3) :=
  ⟨⟨by decide, by decide, relu_clip_in_range.1 5 7 (by decide) (by decide)⟩,
   ⟨by decide, by decide, by decide,
    relu_clip_in_range.2.1 3 (pB - 2) (by decide) (by decide) (by decide)⟩⟩

/-- C3: for every well-shaped circuit, the out-of-circuit reference
computation `compute_model_var`, evaluated at the class index the circuit
computes, produces exactly the model fingerprint and statement digest
computed in-circuit: both sides absorb the same values in the same order
into sponges with the same configuration. -/
theorem native_reference_matches_circuit (c : TwoLayerNN) (h : wellShaped c) :
    ∃ tr outs, generate_constraints c = .ok (tr, outs) ∧
      model_fingerprint c.weight_1 c.weight_2 c.bias_1 c.bias_2 c.zero_relu =
        outs.fingerprint ∧
      compute_model_var c.weight_1 c.weight_2 c.bias_1 c.bias_2 c.zero_relu
        c.input outs.argmaxOut = outs.digest :=
  ⟨traceOf c, outsOf c, generate_constraints_ok c h, rfl, rfl⟩

/-- C3 (witness): the refinement applied to a concrete 1x1 model. -/
theorem native_reference_matches_circuit_witness :
    wellShaped ⟨[[1]], [[2]], [3], [4], [5], 0, 6⟩ ∧
    (∃ tr outs,
      generate_constraints ⟨[[1]], [[2]], [3], [4], [5], 0, 6⟩ = .ok (tr, outs) ∧
      model_fingerprint [[1]] [[2]] [4] [5] 0 = outs.fingerprint ∧
      compute_model_var [[1]] [[2]] [4] [5] 0 [3] outs.argmaxOut = outs.digest) :=
  ⟨by decide,
   native_reference_matches_circuit ⟨[[1]], [[2]], [3], [4], [5], 0, 6⟩ (by decide)⟩

/-- C4: the commitment binder's two stages, characterised by their absorb
sequences: the model fingerprint absorbs `W1` row-major, then `W2`
row-major, then `b1`, then `b2`, then the threshold, and squeezes one
element; the statement digest starts a fresh sponge, absorbs the input
vector, then the class index, then the fingerprint, and squeezes one
element. -/
theorem commitment_absorb_order (w1 w2 : List (List Nat)) (b1 b2 : List Nat)
    (zr : Nat) (x : List Nat) (out : Nat) :
    model_fingerprint w1 w2 b1 b2 zr =
      squeeze1 (absorbList newSp (w1.flatten ++ w2.flatten ++ b1 ++ b2 ++ [zr])) ∧
    compute_model_var w1 w2 b1 b2 zr x out =
      squeeze1 (absorbList newSp (x ++ [out, model_fingerprint w1 w2 b1 b2 zr])) := by
  constructor
  · unfold model_fingerprint
    simp only [absorbList_append, absorbMat_eq_flatten, absorbList_single]
  · unfold compute_model_var
    simp only [absorbList_append, absorbList_single]
    simp [absorbList]

/-- C5: each first-layer output is the rescale of the accumulated affine
value `Σ_i W1[j][i]·x[i] + b1[j]`, and the rescale is division by `2^22` on
the canonical bit representation: values below `2^22` (fewer than 23
significant bits) rescale to `0`, and `2^22 + k` with `k < 2^22` rescales
to `1`. -/
theorem layer1_rescale_shift :
    (∀ (rows : List (List Nat)) (x bs : List Nat),
      (∀ r ∈ rows, r.length ≤ x.length) → rows.length ≤ bs.length →
      layer1Rows rows x bs =
        some (List.zipWith (fun row b => specAffine row x b / 2 ^ 22) rows bs)) ∧
    (∀ v : Nat, v < 2 ^ 22 → rescale v = 0) ∧
    (∀ k : Nat, k < 2 ^ 22 → rescale (2 ^ 22 + k) = 1) := by
  refine ⟨?_, ?_, ?_⟩
  · intro rows x bs hr hb
    rw [layer1Rows_eq rows x bs hr hb]
    have hfun : (fun row b => rescale (specAffine row x b)) =
        (fun row b => specAffine row x b / 2 ^ 22) := by
      funext row b
      exact rescale_eq _ (Nat.mod_lt _ pB_pos)
    rw [hfun]
  · intro v hv
    have hlt : v < pB := lt_trans hv (by decide)
    rw [rescale_eq v hlt]
    exact Nat.div_eq_of_lt hv
  · intro k hk
    have hlt : 2 ^ 22 + k < pB := by
      have h23 : (2 : Nat) ^ 23 < pB := by decide
      have h22 : (2 : Nat) ^ 22 + 2 ^ 22 = 2 ^ 23 := by norm_num
      omega
    rw [rescale_eq _ hlt]
    have h22 : (2 : Nat) ^ 22 = 4194304 := by norm_num
    rw [h22] at hk ⊢
    omega

/-- C5 (witness): the rescaled layer applied to a 1x1 row with accumulated
value `3·5 + 8388608 = 2^23 + 15`, plus the truncation facts at `v = 5` and
`k = 9`. -/
theorem layer1_rescale_shift_witness :
    ((∀ r ∈ ([[3]] : List (List Nat)), r.length ≤ ([5] : List Nat).length) ∧
      ([[3]] : List (List Nat)).length ≤ ([8388608] : List Nat).length) ∧
    layer1Rows [[3]] [5] [8388608] =
      some (List.zipWith (fun row b => specAffine row [5] b / 2 ^ 22)
        [[3]] [8388608]) ∧
    rescale 5 = 0 ∧ rescale (2 ^ 22 + 9) = 1 :=
  ⟨⟨by decide, by decide⟩,
   layer1_rescale_shift.1 [[3]] [5] [8388608] (by decide) (by decide),
   layer1_rescale_shift.2.1 5 (by decide),
   layer1_rescale_shift.2.2 9 (by decide)⟩

/-- C6 (counterexample): the circuit with `W1 = [[1]]`, `W2 = [[1]]`,
`x = [1]`, `b1 = [7, 8]` (one bias too many), `b2 = [3]` violates the shape
invariant `len(b1) = row count of W1`, yet both asserted conditions pass
and `generate_constraints` runs to completion: the mismatch is never
detected, contradicting "detects the mismatch and aborts before any
witness value is allocated". -/
theorem shape_gap_counterexample :
    ¬ wellShaped ⟨[[1]], [[1]], [1], [7, 8], [3], 0, 0⟩ ∧
    (generate_constraints ⟨[[1]], [[1]], [1], [7, 8], [3], 0, 0⟩).isOk = true :=
  ⟨by decide, by decide⟩

/-- C6 (amended): only the two asserted equalities
(`weight_1[0].len == input.len` and `weight_2[0].len == weight_1.len`) are
checked before witness allocation; inputs violating them (or for which the
`weight_1[0]` / `weight_2[0]` indexing itself panics) abort with an empty
allocation trace, and once they hold the initial witnesses are always
allocated before any later panic. -/
theorem shape_asserts_before_alloc (c : TwoLayerNN) :
    (¬ assertsOk c → ∃ l, generate_constraints c = .error (l, [])) ∧
    (assertsOk c → ∀ l tr, generate_constraints c = .error (l, tr) → tr ≠ []) :=
  ⟨generate_constraints_assert_abort c, generate_constraints_post_assert c⟩

/-- C6 (witness): the amended theorem applied to the all-empty circuit
(aborts with empty trace) and to a circuit with a ragged second `W1` row
(asserts pass, the later index panic happens after ten witness
allocations). -/
theorem shape_asserts_before_alloc_witness :
    (¬ assertsOk ⟨[], [], [], [], [], 0, 0⟩ ∧
      (∃ l, generate_constraints ⟨[], [], [], [], [], 0, 0⟩ = .error (l, []))) ∧
    (assertsOk ⟨[[1], [1, 1]], [[2, 2]], [1], [4, 4], [5], 0, 0⟩ ∧
      ([Ev.wit 1, Ev.wit 4, Ev.wit 4, Ev.wit 5, Ev.wit 1, Ev.wit 1, Ev.wit 1,
        Ev.wit 2, Ev.wit 2, Ev.wit 0] : List Ev) ≠ []) :=
  ⟨⟨by decide, (shape_asserts_before_alloc ⟨[], [], [], [], [], 0, 0⟩).1 (by decide)⟩,
   ⟨by decide,
    (shape_asserts_before_alloc ⟨[[1], [1, 1]], [[2, 2]], [1], [4, 4], [5], 0, 0⟩).2
      (by decide) .runtime
      [Ev.wit 1, Ev.wit 4, Ev.wit 4, Ev.wit 5, Ev.wit 1, Ev.wit 1, Ev.wit 1,
        Ev.wit 2, Ev.wit 2, Ev.wit 0] rfl⟩⟩

/-- C7: the second linear layer produces, for every row, the raw affine
combination `(Σ_i W2[j][i]·a[i] + b2[j]) mod p` of the activated vector,
with no bit-decomposition truncation applied. -/
theorem layer2_raw_affine (rows : List (List Nat)) (a bs : List Nat)
    (h : ∀ r ∈ rows, r.length ≤ a.length) (hb : rows.length ≤ bs.length) :
    layer2Rows rows a bs =
      some (List.zipWith (fun row b => (dotSum row a + b) % pB) rows bs) :=
  layer2Rows_eq rows a bs h hb

/-- C7 (witness): the raw affine layer at a concrete 1x2 row. -/
theorem layer2_raw_affine_witness :
    ((∀ r ∈ ([[2, 3]] : List (List Nat)), r.length ≤ ([4, 5] : List Nat).length) ∧
      ([[2, 3]] : List (List Nat)).length ≤ ([7] : List Nat).length) ∧
    layer2Rows [[2, 3]] [4, 5] [7] =
      some (List.zipWith (fun row b => (dotSum row [4, 5] + b) % pB) [[2, 3]] [7]) :=
  ⟨⟨by decide, by decide⟩, layer2_raw_affine [[2, 3]] [4, 5] [7] (by decide) (by decide)⟩

/-- C8: every successful run allocates exactly one public input, carrying
the supplied public statement, and records exactly one `enforce_equal`
assertion, relating the computed inference digest to that public input;
every other recorded allocation is a private witness. -/
theorem single_public_single_assertion (c : TwoLayerNN) (h : wellShaped c) :
    ∃ tr outs, generate_constraints c = .ok (tr, outs) ∧
      tr.filter isPubEv = [Ev.pub c.public_statement] ∧
      tr.filter isEqEv = [Ev.eq outs.digest c.public_statement] ∧
      outs.digest = squeeze1 (absorbElem (absorbElem (absorbList newSp c.input)
        outs.argmaxOut) outs.fingerprint) := by
  refine ⟨traceOf c, outsOf c, generate_constraints_ok c h, ?_, ?_, rfl⟩
  · unfold traceOf
    simp only [List.filter_append, wit_no_pub, wit_flat_no_pub, List.nil_append,
      List.append_nil]
    simp [isPubEv, isEqEv]
  · unfold traceOf
    simp only [List.filter_append, wit_no_eq, wit_flat_no_eq, List.nil_append,
      List.append_nil]
    simp [isPubEv, isEqEv, outsOf]

/-- C8 (witness): the single-public-input property on a concrete run. -/
theorem single_public_single_assertion_witness :
    wellShaped ⟨[[2]], [[3]], [4], [5], [6], 0, 9⟩ ∧
    (∃ tr outs,
      generate_constraints ⟨[[2]], [[3]], [4], [5], [6], 0, 9⟩ = .ok (tr, outs) ∧
      tr.filter isPubEv = [Ev.pub 9] ∧
      tr.filter isEqEv = [Ev.eq outs.digest 9] ∧
      outs.digest = squeeze1 (absorbElem (absorbElem (absorbList newSp [4])
        outs.argmaxOut) outs.fingerprint)) :=
  ⟨by decide,
   single_public_single_assertion ⟨[[2]], [[3]], [4], [5], [6], 0, 9⟩ (by decide)⟩

/-- C9: `to_bits_le` always returns the full 255-bit decomposition, so the
`> 22` branch of `shifted_bits` is always taken and the single
constant-false-bit fallback is unreachable. -/
theorem rescale_fallback_unreachable (v : Nat) :
    (to_bits_le v).length = 255 ∧ 22 < (to_bits_le v).length ∧
    shifted_bits v = (to_bits_le v).drop 22 := by
  refine ⟨to_bits_le_length v, ?_, ?_⟩
  · rw [to_bits_le_length]
    omega
  · unfold shifted_bits
    rw [to_bits_le_length]
    rw [if_pos (by omega : 22 < 255)]

/-- C10 (counterexample): with `weight_1 = []` and `weight_2 = []` the run
panics at the `weight_1[0]` indexing of the FIRST shape assertion, not at
the `weight_2[0]` indexing the claim names (still before any allocation
and before the arg-max). -/
theorem empty_both_panic_counterexample :
    generate_constraints ⟨[], [], [], [], [], 0, 0⟩ = .error (.idxW1, []) ∧
    Loc.idxW1 ≠ Loc.idxW2 :=
  ⟨rfl, by decide⟩

/-- C10 (amended): once `weight_1[0]` exists and the first assertion
passes, an empty `weight_2` panics exactly at the `weight_2[0]` indexing of
the second assertion, before any witness allocation (and hence before the
arg-max's `final_result[0]`); for well-shaped inputs (`m ≥ 1`) the run
completes, so both indexings are in bounds. -/
theorem empty_w2_panics_at_assert (c : TwoLayerNN) :
    (c.weight_2 = [] → ∀ r0, c.weight_1[0]? = some r0 →
      r0.length = c.input.length →
      generate_constraints c = .error (.idxW2, [])) ∧
    (wellShaped c → ∃ tr outs, generate_constraints c = .ok (tr, outs)) := by
  constructor
  · intro hw2 r0 hw1 hlen
    unfold generate_constraints
    simp only [hw1, hw2, List.getElem?_nil, ne_eq, hlen, eq_self_iff_true,
      not_true_eq_false, ite_false]
  · intro h
    exact ⟨traceOf c, outsOf c, generate_constraints_ok c h⟩

/-- C10 (witness): the amended theorem applied to a circuit with empty
`weight_2` (panics at the second assertion's indexing) and to a well-shaped
1x1 circuit (completes). -/
theorem empty_w2_panics_at_assert_witness :
    ((⟨[[1]], [], [1], [1], [], 0, 0⟩ : TwoLayerNN).weight_2 = [] ∧
      (⟨[[1]], [], [1], [1], [], 0, 0⟩ : TwoLayerNN).weight_1[0]? = some [1] ∧
      ([1] : List Nat).length =
        (⟨[[1]], [], [1], [1], [], 0, 0⟩ : TwoLayerNN).input.length) ∧
    generate_constraints ⟨[[1]], [], [1], [1], [], 0, 0⟩ = .error (.idxW2, []) ∧
    wellShaped ⟨[[7]], [[8]], [9], [1], [2], 3, 4⟩ ∧
    (∃ tr outs,
      generate_constraints ⟨[[7]], [[8]], [9], [1], [2], 3, 4⟩ = .ok (tr, outs)) :=
  ⟨⟨rfl, rfl, rfl⟩,
   (empty_w2_panics_at_assert ⟨[[1]], [], [1], [1], [], 0, 0⟩).1 rfl [1] rfl rfl,
   by decide,
   (empty_w2_panics_at_assert ⟨[[7]], [[8]], [9], [1], [2], 3, 4⟩).2 (by decide)⟩

end ZkAI
